import Mathlib

/-!
keptain: the KEP store and the pull-request indexer.

A shallow embedding of `experimental/keptain/pkg/model` and
`experimental/keptain/pkg/store` (`kep.go`, `prs.go`).

Conventions of the embedding:

* a Go `string` is its sequence of bytes (`GoString`); `==` is equality of
  the byte sequences and `<` is the lexicographic order on them, which is
  the order `slices.Sorted` uses on strings;
* a Go `map[string]V` is an association list without repeated keys
  (`GoMap`); an assignment `m[k] = v` replaces the entry of `k` or adds one;
* functions of other packages (go-git, go-github, `os`, `path/filepath`,
  `strings.ToLower`, the yaml decoder) are parameters, gathered in
  structures, each returning what the Go function returns;
* a Go function with receiver `r *Repository` that mutates `r` takes the
  repository and returns the repository it leaves behind;
* a failure is a value of an error type with one constructor per
  `fmt.Errorf` site; a run-time panic is the constructor
  `Fault.indexOutOfRange`.
-/

namespace Keptain

/-! ## Strings and maps -/

/-- Go `string`: a sequence of bytes. -/
abbrev GoString := List Nat

/-- The bytes of an ASCII literal (for ASCII text the bytes are the code points). -/
def bytes (s : String) : GoString := s.toList.map Char.toNat

/-- Go `strings.Contains(s, substr)`: `substr` occurs in `s` as a contiguous run of bytes. -/
def Contains (s substr : GoString) : Bool := decide (substr <:+: s)

/-- Go `map[string]V`, as the list of its entries; no key occurs twice. -/
abbrev GoMap (V : Type) := List (GoString × V)

/-- Go `m[k] = v`. -/
def GoMap.set {V : Type} : GoMap V → GoString → V → GoMap V
  | [], k, v => [(k, v)]
  | (k', v') :: rest, k, v =>
    if k' = k then (k, v) :: rest else (k', v') :: GoMap.set rest k v

/-- Go `maps.Keys(m)`: the keys, in the order this run of the program iterates the map. -/
def mapsKeys {V : Type} (m : GoMap V) : List GoString := m.map Prod.fst

/-- Go `slices.Sorted(seq)` on strings: the elements of `seq` in ascending order. -/
def slicesSorted (seq : List GoString) : List GoString :=
  seq.insertionSort (fun a b => a ≤ b)

/-! ## pkg/model -/

/-- The Go struct `model.KEP`. -/
structure KEP where
  Path : GoString
  Title : GoString
  Number : GoString
  Authors : List GoString
  Status : GoString
  TextURL : GoString
  TextContents : GoString
deriving DecidableEq

/-- The Go struct `model.PullRequest`; a nil `Files` is the empty list. -/
structure PullRequest where
  Number : Int
  Title : GoString
  Author : GoString
  CommitSHA : GoString
  BaseSHA : GoString
  Files : List GoString
deriving DecidableEq

/-- The Go struct `store.Repository` (`prs.go` reads and writes a field
`pullRequests` next to the two fields declared in `kep.go`). -/
structure Repository where
  basePath : GoString
  keps : GoMap KEP
  pullRequests : List PullRequest
deriving DecidableEq

/-! ## go-git and go-github, as far as `prs.go` calls them -/

/-- The go-git type `plumbing.Hash`. -/
abbrev PlumbingHash := List Nat

/-- The go-git type `object.Commit`, the fields the walk looks at. -/
structure Commit where
  Hash : PlumbingHash
  TreeHash : PlumbingHash
  ParentHashes : List PlumbingHash
deriving DecidableEq

/-- The go-git type `object.Tree`, flattened: the files below it with the hash of their content. -/
structure Tree where
  Entries : List (GoString × PlumbingHash)
deriving DecidableEq

/-- The go-git type `object.ChangeEntry`; `indexPullRequests` reads `Name` only. -/
structure ChangeEntry where
  Name : GoString
deriving DecidableEq

/-- The go-git type `object.Change`. -/
structure Change where
  From : ChangeEntry
  To : ChangeEntry
deriving DecidableEq

/-- The go-git type `object.CommitIter`: the commits `Next` still has to hand
out, and the error `Next` returns once they are used up (`io.EOF` at the end
of the history, another error where an object cannot be read). -/
structure CommitIter where
  pending : List Commit
  final : String
deriving DecidableEq

/-- The go-git calls made on an opened repository: `plumbing.NewHash`,
`Repository.CommitObject`, `Commit.MergeBase`, `Repository.Log` with only
`From` set, `Commit.Tree` and `Tree.Diff`. -/
structure GitRepo where
  NewHash : GoString → PlumbingHash
  CommitObject : PlumbingHash → Except String Commit
  MergeBase : Commit → Commit → Except String (List Commit)
  Log : PlumbingHash → Except String CommitIter
  TreeOf : Commit → Except String Tree
  Diff : Tree → Tree → Except String (List Change)

/-- The go-github type `github.PullRequest`, the fields read through the getters. -/
structure GithubPullRequest where
  Number : Int
  Title : GoString
  UserLogin : GoString
  HeadSHA : GoString
  BaseSHA : GoString
deriving DecidableEq

/-- The two calls that leave the process: `githubClient.PullRequests.List`
for kubernetes/enhancements and `gogit.PlainOpen`. -/
structure Services where
  ListPullRequests : Except String (List GithubPullRequest)
  PlainOpen : GoString → Except String GitRepo

/-! ## pkg/store/prs.go -/

/-- What stops `indexPullRequests`: one constructor per `return fmt.Errorf`
of the function, in source order, and `indexOutOfRange index length` for the
run-time panic of a slice index expression. -/
inductive Fault where
  | listingPullRequests (cause : String)
  | openingRepository (cause : String)
  | headCommit (sha : GoString) (number : Int) (cause : String)
  | baseCommit (sha : GoString) (number : Int) (cause : String)
  | mergeBase (number : Int) (cause : String)
  | noMergeBase (number : Int)
  | multipleMergeBases (number : Int)
  | readingCommits (number : Int) (sha : GoString) (cause : String)
  | walkingLog (number : Int) (sha : GoString) (cause : String)
  | baseTree (number : Int) (cause : String)
  | headTree (number : Int) (cause : String)
  | diff (number : Int) (cause : String)
  | indexOutOfRange (index : Int) (length : Nat)
deriving DecidableEq

/-- Whether the fault is a returned `error` (as opposed to a panic). -/
def Fault.isError : Fault → Bool
  | .indexOutOfRange _ _ => false
  | _ => true

/-- The `for` loop over `commitIter.Next()`, on the commits the iterator
still holds: `Next` hands out the first of them, or the iterator's final
error when there is none. `commits` is the slice built so far; the loop ends
with the slice at the first commit whose hash is `stopAt` and with the error
of `Next` when the iterator runs out first. -/
def walkLog (stopAt : PlumbingHash) (final : String) :
    List Commit → List Commit → Except String (List Commit)
  | [], _ => .error final
  | commit :: rest, commits =>
    if commit.Hash = stopAt then .ok commits
    else walkLog stopAt final rest (commits ++ [commit])

/-- The body of `for _, change := range changes`. -/
def recordChange (files : GoMap Bool) (change : Change) : GoMap Bool :=
  let files := if change.To.Name ≠ [] then files.set change.To.Name true else files
  if change.From.Name ≠ [] then files.set change.From.Name true else files

/-- The value assigned to `pr.Files`: `slices.Sorted(maps.Keys(files))` after the loop over `changes`. -/
def changedFiles (changes : List Change) : List GoString :=
  slicesSorted (mapsKeys (changes.foldl recordChange []))

/-- The second half of the body of `for _, pr := range prs`, from
`baseTree, err := commits[len(commits)-1].Tree()` up to the assignment to
`pr.Files`, on the slice `commits` that the walk has built: the value to
assign, or the fault that ends `indexPullRequests`. -/
def diffCommits (g : GitRepo) (pr : PullRequest) (commits : List Commit) :
    Except Fault (List GoString) :=
  match commits.getLast? with
  | none => .error (.indexOutOfRange (-1) 0)
  | some oldest =>
  match g.TreeOf oldest with
  | .error e => .error (.baseTree pr.Number e)
  | .ok baseTree =>
  match commits.head? with
  | none => .error (.indexOutOfRange 0 0)
  | some newest =>
  match g.TreeOf newest with
  | .error e => .error (.headTree pr.Number e)
  | .ok headTree =>
  match g.Diff baseTree headTree with
  | .error e => .error (.diff pr.Number e)
  | .ok changes => .ok (changedFiles changes)

/-- The body of `for _, pr := range prs`, up to the assignment to `pr.Files`:
the value to assign, or the fault that ends `indexPullRequests`. The first
half, written out here, resolves the commits and the merge base and walks the
log; the second half is `diffCommits` on the commits the walk collected. -/
def prFiles (g : GitRepo) (pr : PullRequest) : Except Fault (List GoString) :=
  match g.CommitObject (g.NewHash pr.CommitSHA) with
  | .error e => .error (.headCommit pr.CommitSHA pr.Number e)
  | .ok headCommit =>
  match g.CommitObject (g.NewHash pr.BaseSHA) with
  | .error e => .error (.baseCommit pr.BaseSHA pr.Number e)
  | .ok baseCommit =>
  match g.MergeBase headCommit baseCommit with
  | .error e => .error (.mergeBase pr.Number e)
  | .ok mergeBase =>
  if mergeBase.length = 0 then .error (.noMergeBase pr.Number)
  else if mergeBase.length > 1 then .error (.multipleMergeBases pr.Number)
  else
  match g.Log (g.NewHash pr.CommitSHA) with
  | .error e => .error (.readingCommits pr.Number pr.CommitSHA e)
  | .ok commitIter =>
  match mergeBase.head? with
  | none => .error (.indexOutOfRange 0 0)
  | some mb =>
  let stopAt := mb.Hash
  match walkLog stopAt commitIter.final commitIter.pending [] with
  | .error e => .error (.walkingLog pr.Number pr.CommitSHA e)
  | .ok commits => diffCommits g pr commits

/-- The loop `for _, pr := range prs`: the slice `prs` as the loop leaves it
(the records are updated in place) and the fault that ended it, if any. -/
def indexLoop (g : GitRepo) : List PullRequest → List PullRequest × Option Fault
  | [] => ([], none)
  | pr :: rest =>
    match prFiles g pr with
    | .error e => (pr :: rest, some e)
    | .ok files =>
      let out := indexLoop g rest
      ({ pr with Files := files } :: out.1, out.2)

/-- The first loop of `indexPullRequests`: one `model.PullRequest` per listed pull request. -/
def newPullRequests (listed : List GithubPullRequest) : List PullRequest :=
  listed.map fun p =>
    { Number := p.Number, Title := p.Title, Author := p.UserLogin,
      CommitSHA := p.HeadSHA, BaseSHA := p.BaseSHA, Files := [] }

/-- The method `Repository.indexPullRequests`: the repository afterwards and the fault returned (`none` for `nil`). -/
def indexPullRequests (s : Services) (r : Repository) : Repository × Option Fault :=
  match s.ListPullRequests with
  | .error e => (r, some (.listingPullRequests e))
  | .ok githubPullRequests =>
  let prs := newPullRequests githubPullRequests
  match s.PlainOpen r.basePath with
  | .error e => (r, some (.openingRepository e))
  | .ok gitRepo =>
  match indexLoop gitRepo prs with
  | (_, some e) => (r, some e)
  | (prs, none) => ({ r with pullRequests := prs }, none)

/-- The method `Repository.ListPullRequests`. -/
def ListPullRequests (r : Repository) : Except String (List PullRequest) :=
  .ok r.pullRequests

/-! ## pkg/store/kep.go -/

/-- The Go struct `kepFile`, the format of a `kep.yaml`. -/
structure kepFile where
  Title : GoString
  Number : GoString
  Authors : List GoString
  OwningSig : GoString
  ParticipatingSigs : List GoString
  Reviewers : List GoString
  Approvers : List GoString
  Editor : GoString
  CreationDate : GoString
  LastUpdated : GoString
  Status : GoString
  SeeAlso : List GoString
  Replaces : List GoString
  SupersededBy : List GoString
deriving DecidableEq

/-- The error of an `os` call, with the answer of `os.IsNotExist` on it. -/
structure OsError where
  notExist : Bool
  text : String
deriving DecidableEq

/-- One call of the walk function by `filepath.Walk`: the path, `info.IsDir()`
and the `err` argument. -/
structure WalkEntry where
  path : GoString
  isDir : Bool
  err : Option String
deriving DecidableEq

/-- The calls into `os`, `path/filepath`, `strings` and the yaml decoder:
`Walk root` lists the calls `filepath.Walk` makes while every call returns
nil, in its order; `UnmarshalKepFile` and `UnmarshalRawMap` are
`yaml.Unmarshal` into a `kepFile` and into a `map[string]interface{}`. -/
structure Platform where
  Walk : GoString → List WalkEntry
  ReadFile : GoString → Except OsError GoString
  Base : GoString → GoString
  Dir : GoString → GoString
  Rel : GoString → GoString → Except String GoString
  Join : GoString → GoString → GoString
  ToLower : GoString → GoString
  UnmarshalKepFile : GoString → Except String kepFile
  UnmarshalRawMap : GoString → Except String Unit

/-- The two `fmt.Errorf` sites of `parseKEPFile`. -/
inductive ParseError where
  | yaml (cause : String)
  | metadata (cause : String)
deriving DecidableEq

/-- The `return` sites of the walk function of `loadKEPs` that return a
non-nil error; `loadKEPs` and `NewRepository` wrap it without looking at it. -/
inductive LoadError where
  | walk (cause : String)
  | relativePath (cause : String)
  | readingKEPFile (cause : OsError)
  | parsingKEP (path : GoString) (cause : ParseError)
  | gettingReadme (cause : OsError)
deriving DecidableEq

/-- The method `Repository.parseKEPFile`. -/
def parseKEPFile (p : Platform) (data : GoString) : Except ParseError KEP :=
  match p.UnmarshalKepFile data with
  | .error e => .error (.yaml e)
  | .ok kep =>
  match p.UnmarshalRawMap data with
  | .error e => .error (.metadata e)
  | .ok _ =>
    .ok { Path := [], Title := kep.Title, Number := kep.Number, Authors := kep.Authors,
          Status := kep.Status, TextURL := [], TextContents := [] }

/-- The function literal that `loadKEPs` passes to `filepath.Walk`: the
repository after the call and the error it returns (`none` for `nil`). -/
def walkFn (p : Platform) (r : Repository) (e : WalkEntry) : Repository × Option LoadError :=
  match e.err with
  | some err => (r, some (.walk err))
  | none =>
  if e.isDir then (r, none)
  else if p.Base e.path ≠ bytes "kep.yaml" then (r, none)
  else
  match p.Rel r.basePath e.path with
  | .error err => (r, some (.relativePath err))
  | .ok relativePath =>
  let dir := p.Dir e.path
  let relativeDir := p.Dir relativePath
  match p.ReadFile e.path with
  | .error err => (r, some (.readingKEPFile err))
  | .ok b =>
  match parseKEPFile p b with
  | .error err => (r, some (.parsingKEP e.path err))
  | .ok kep =>
  let kep := { kep with Path := relativeDir }
  let readme := p.Join dir (bytes "README.md")
  match p.ReadFile readme with
  | .error err =>
    if !err.notExist then (r, some (.gettingReadme err)) else (r, none)
  | .ok readmeBytes =>
  let kep := { kep with
    TextContents := readmeBytes,
    TextURL := bytes "https://github.com/kubernetes/enhancements/blob/master/" ++
      p.Join relativeDir (bytes "README.md") }
  ({ r with keps := r.keps.set kep.Path kep }, none)

/-- The call of `filepath.Walk`: the walk function is called entry by entry and
the first non-nil error it returns ends the walk and is the error of `Walk`. -/
def walkEntries (p : Platform) : Repository → List WalkEntry → Repository × Option LoadError
  | r, [] => (r, none)
  | r, e :: rest =>
    match walkFn p r e with
    | (r, some err) => (r, some err)
    | (r, none) => walkEntries p r rest

/-- The method `Repository.loadKEPs`. -/
def loadKEPs (p : Platform) (r : Repository) : Repository × Option LoadError :=
  walkEntries p r (p.Walk r.basePath)

/-- The function `NewRepository`. -/
def NewRepository (p : Platform) (basePath : GoString) : Except LoadError Repository :=
  let r : Repository := { basePath := basePath, keps := [], pullRequests := [] }
  match loadKEPs p r with
  | (_, some err) => .error err
  | (r, none) => .ok r

/-- The function `containsAuthor`. -/
def containsAuthor (p : Platform) : List GoString → GoString → Bool
  | [], _ => false
  | author :: rest, query =>
    if Contains (p.ToLower author) query then true else containsAuthor p rest query

/-- The body of `for _, kep := range r.keps` in `ListKEPs`, on the two
variables it assigns: `query` and `ret`. -/
def listStep (p : Platform) (st : GoString × List KEP) (kep : KEP) : GoString × List KEP :=
  let query := st.1
  let ret := st.2
  let matched := true
  let upd : GoString × Bool :=
    if query ≠ [] then
      let query := p.ToLower query
      if Contains (p.ToLower kep.Title) query ||
          Contains (p.ToLower kep.Number) query ||
          containsAuthor p kep.Authors query then
        (query, true)
      else (query, matched)
    else (query, matched)
  if upd.2 then (upd.1, ret ++ [kep]) else (upd.1, ret)

/-- The method `Repository.ListKEPs`; the map is iterated in the order of its entries. -/
def ListKEPs (p : Platform) (r : Repository) (query : GoString) : Except String (List KEP) :=
  .ok ((r.keps.map Prod.snd).foldl (listStep p) (query, [])).2

/-- The filter that the comment on `ListKEPs` describes: with a non-empty
query, a KEP is listed when its title, its number or one of its authors
contains the query, all compared in lower case. -/
def matchesQuery (p : Platform) (query : GoString) (kep : KEP) : Bool :=
  Contains (p.ToLower kep.Title) (p.ToLower query) ||
    Contains (p.ToLower kep.Number) (p.ToLower query) ||
    containsAuthor p kep.Authors (p.ToLower query)


/-! ## A small store to run the code on

Five commits on two branches, and one commit without relatives:

```
aa --- b1 --- b2 --- b3     (the branch of the pull requests)
  \
   cc                       (the branch they are to be merged into)
dd                          (no parent, no child)
```

`aa` holds `a` and `b`; `b1` changes `b`; `b2` adds `c`; `b3` changes `a` and
adds `Z`; `cc` adds `d`.
A hash is written as text, and `NewHash` is the identity. -/

namespace Fixture

/-- The commit `aa`, the root of both branches. -/
def commitAA : Commit :=
  { Hash := bytes "aa", TreeHash := bytes "t0", ParentHashes := [] }

/-- The commit `b1`, child of `aa`. -/
def commitB1 : Commit :=
  { Hash := bytes "b1", TreeHash := bytes "t1", ParentHashes := [bytes "aa"] }

/-- The commit `b2`, child of `b1`. -/
def commitB2 : Commit :=
  { Hash := bytes "b2", TreeHash := bytes "t2", ParentHashes := [bytes "b1"] }

/-- The commit `b3`, child of `b2`. -/
def commitB3 : Commit :=
  { Hash := bytes "b3", TreeHash := bytes "t4", ParentHashes := [bytes "b2"] }

/-- The commit `cc`, child of `aa` on the other branch. -/
def commitCC : Commit :=
  { Hash := bytes "cc", TreeHash := bytes "t3", ParentHashes := [bytes "aa"] }

/-- The commit `dd`, unrelated to the others. -/
def commitDD : Commit :=
  { Hash := bytes "dd", TreeHash := bytes "t0", ParentHashes := [] }

/-- The commits of the store. -/
def commits : List Commit := [commitAA, commitB1, commitB2, commitB3, commitCC, commitDD]

/-- The trees of the store, by hash. -/
def trees : List (PlumbingHash × Tree) :=
  [ (bytes "t0", { Entries := [(bytes "a", bytes "1"), (bytes "b", bytes "1")] }),
    (bytes "t1", { Entries := [(bytes "a", bytes "1"), (bytes "b", bytes "2")] }),
    (bytes "t2", { Entries := [(bytes "a", bytes "1"), (bytes "b", bytes "2"),
                               (bytes "c", bytes "1")] }),
    (bytes "t3", { Entries := [(bytes "a", bytes "1"), (bytes "b", bytes "1"),
                               (bytes "d", bytes "1")] }),
    (bytes "t4", { Entries := [(bytes "Z", bytes "1"), (bytes "a", bytes "2"),
                               (bytes "b", bytes "2"), (bytes "c", bytes "1")] }) ]

/-- The commit with the given hash. -/
def commitObject (h : PlumbingHash) : Except String Commit :=
  match commits.find? (fun c => c.Hash = h) with
  | some c => .ok c
  | none => .error "object not found"

/-- The commit with the given hash and its ancestors along first parents, newest first. -/
def history : Nat → PlumbingHash → List Commit
  | 0, _ => []
  | n + 1, h =>
    match commits.find? (fun c => c.Hash = h) with
    | none => []
    | some c =>
      match c.ParentHashes with
      | [] => [c]
      | parent :: _ => c :: history n parent

/-- The merge base of two commits of the store: the newest commit of the
first history that is in the second one, if there is one. -/
def mergeBase (a b : Commit) : Except String (List Commit) :=
  match (history 8 a.Hash).find? (fun c => decide (c ∈ history 8 b.Hash)) with
  | some c => .ok [c]
  | none => .ok []

/-- The log from a commit: its history, then `EOF`. -/
def log (h : PlumbingHash) : Except String CommitIter :=
  match commitObject h with
  | .error e => .error e
  | .ok _ => .ok { pending := history 8 h, final := "EOF" }

/-- The tree of a commit. -/
def treeOf (c : Commit) : Except String Tree :=
  match trees.find? (fun t => t.1 = c.TreeHash) with
  | some t => .ok t.2
  | none => .error "object not found"

/-- The content hash of a path in a tree. -/
def blobAt (t : Tree) (path : GoString) : Option PlumbingHash :=
  (t.Entries.find? (fun e => e.1 = path)).map Prod.snd

/-- The changes from one tree to another: a deletion or a modification for
each file of the first tree that is missing or different in the second, then
an insertion for each file of the second that is not in the first. -/
def diff (a b : Tree) : Except String (List Change) :=
  .ok (a.Entries.filterMap (fun e =>
          match blobAt b e.1 with
          | none => some { From := { Name := e.1 }, To := { Name := [] } }
          | some h => if h = e.2 then none
                      else some { From := { Name := e.1 }, To := { Name := e.1 } })
        ++ b.Entries.filterMap (fun e =>
          match blobAt a e.1 with
          | none => some { From := { Name := [] }, To := { Name := e.1 } }
          | some _ => none))

/-- The store, opened. -/
def gitRepo : GitRepo :=
  { NewHash := fun s => s, CommitObject := commitObject, MergeBase := mergeBase,
    Log := log, TreeOf := treeOf, Diff := diff }

/-- The services: the given pull requests are listed, and the store opens at any path. -/
def services (listed : List GithubPullRequest) : Services :=
  { ListPullRequests := .ok listed, PlainOpen := fun _ => .ok gitRepo }

/-- A listed pull request with the given number, head and base. -/
def listed (number : Int) (head base : String) : GithubPullRequest :=
  { Number := number, Title := bytes "t", UserLogin := bytes "u",
    HeadSHA := bytes head, BaseSHA := bytes base }

/-- A pull request record with the given number, head and base, not yet indexed. -/
def pullRequest (number : Int) (head base : String) : PullRequest :=
  { Number := number, Title := bytes "t", Author := bytes "u",
    CommitSHA := bytes head, BaseSHA := bytes base, Files := [] }

/-- A repository record on which nothing has been indexed. -/
def repository : Repository :=
  { basePath := bytes "enhancements", keps := [], pullRequests := [] }

end Fixture


namespace Fixture

/-- The store of the example with its history cut below `b1`: the log from
any commit hands out `b2` and `b1` and then fails, while `aa` is still
reported as the merge base. -/
def cutRepo : GitRepo :=
  { gitRepo with
    Log := fun _ => .ok { pending := [commitB2, commitB1], final := "object not found" } }

end Fixture

/-! ## A small file tree to run the code on

```
enhancements/a/kep.yaml      (not yaml)
enhancements/b/README.md
enhancements/b/kep.yaml      (the KEP "Beta", number 1234, by alice)
```

The path functions are those of `path/filepath` on clean, slash-separated
paths; `toLower` is `strings.ToLower` on ASCII text; the decoder knows the
one well-formed `kep.yaml` of the tree and rejects everything else. -/

namespace Fixture

/-- The function `filepath.Base`, on a clean path that does not end in a slash. -/
def base (path : GoString) : GoString :=
  (path.reverse.takeWhile (fun b => b ≠ 47)).reverse

/-- The function `filepath.Dir`, on a clean path with at most one leading slash. -/
def dir (path : GoString) : GoString :=
  match ((path.reverse.dropWhile (fun b => b ≠ 47)).drop 1).reverse with
  | [] => bytes "."
  | d => d

/-- The function `filepath.Rel`, for a target below the base path. -/
def rel (basePath path : GoString) : Except String GoString :=
  if (basePath ++ [47]) <+: path then .ok (path.drop (basePath.length + 1))
  else .error "Rel: cannot make path relative"

/-- The function `filepath.Join` of two clean, non-empty elements. -/
def join (a b : GoString) : GoString := a ++ [47] ++ b

/-- The function `strings.ToLower`, on ASCII text. -/
def toLower (s : GoString) : GoString :=
  s.map (fun b => if 65 ≤ b ∧ b ≤ 90 then b + 32 else b)

/-- The content of `enhancements/b/kep.yaml`. -/
def betaYaml : GoString := bytes "title: Beta\nkep-number: \"1234\"\nauthors: [alice]\n"

/-- The decoded `enhancements/b/kep.yaml`. -/
def betaFile : kepFile :=
  { Title := bytes "Beta", Number := bytes "1234", Authors := [bytes "alice"],
    OwningSig := [], ParticipatingSigs := [], Reviewers := [], Approvers := [],
    Editor := [], CreationDate := [], LastUpdated := [], Status := [],
    SeeAlso := [], Replaces := [], SupersededBy := [] }

/-- The files of a tree, with their content. -/
def readFile (files : List (GoString × GoString)) (path : GoString) : Except OsError GoString :=
  match files.find? (fun f => f.1 = path) with
  | some f => .ok f.2
  | none => .error { notExist := true, text := "no such file or directory" }

/-- The platform on a file tree: the calls `filepath.Walk` makes, and the files. -/
def platform (entries : List WalkEntry) (files : List (GoString × GoString)) : Platform :=
  { Walk := fun _ => entries,
    ReadFile := readFile files,
    Base := base, Dir := dir, Rel := rel, Join := join, ToLower := toLower,
    UnmarshalKepFile := fun data =>
      if data = betaYaml then .ok betaFile else .error "yaml: cannot unmarshal",
    UnmarshalRawMap := fun data =>
      if data = betaYaml then .ok () else .error "yaml: cannot unmarshal" }

/-- A directory met by the walk. -/
def dirEntry (path : String) : WalkEntry := { path := bytes path, isDir := true, err := none }

/-- A file met by the walk. -/
def fileEntry (path : String) : WalkEntry := { path := bytes path, isDir := false, err := none }

/-- The tree of the example. -/
def brokenTree : Platform :=
  platform
    [dirEntry "enhancements", dirEntry "enhancements/a", fileEntry "enhancements/a/kep.yaml",
     dirEntry "enhancements/b", fileEntry "enhancements/b/README.md",
     fileEntry "enhancements/b/kep.yaml"]
    [(bytes "enhancements/a/kep.yaml", bytes "title: ["),
     (bytes "enhancements/b/README.md", bytes "# Beta"),
     (bytes "enhancements/b/kep.yaml", betaYaml)]

/-- The tree of the example without `enhancements/a`. -/
def soundTree : Platform :=
  platform
    [dirEntry "enhancements", dirEntry "enhancements/b", fileEntry "enhancements/b/README.md",
     fileEntry "enhancements/b/kep.yaml"]
    [(bytes "enhancements/b/README.md", bytes "# Beta"),
     (bytes "enhancements/b/kep.yaml", betaYaml)]

/-- The KEP "Beta" as `NewRepository` stores it. -/
def betaKEP : KEP :=
  { Path := bytes "b", Title := bytes "Beta", Number := bytes "1234",
    Authors := [bytes "alice"], Status := [],
    TextURL := bytes "https://github.com/kubernetes/enhancements/blob/master/b/README.md",
    TextContents := bytes "# Beta" }

/-- A second KEP, "Gamma", number 77, by bob. -/
def gammaKEP : KEP :=
  { Path := bytes "g", Title := bytes "Gamma", Number := bytes "77",
    Authors := [bytes "bob"], Status := [], TextURL := [], TextContents := [] }

/-- A repository holding "Beta" and "Gamma". -/
def twoKEPs : Repository :=
  { basePath := bytes "enhancements",
    keps := [(bytes "b", betaKEP), (bytes "g", gammaKEP)], pullRequests := [] }

end Fixture

/-! ## Notions used to state the properties -/

/-- The record of a pull request once its turn in the loop is over: with
`Files` assigned when the turn ends well, as it was otherwise. -/
def indexed (g : GitRepo) (pr : PullRequest) : PullRequest :=
  match prFiles g pr with
  | .ok files => { pr with Files := files }
  | .error _ => pr

/-- A path is named by a change: it is the non-empty `From` name or the non-empty `To` name. -/
def Change.names (change : Change) (path : GoString) : Prop :=
  (path = change.From.Name ∧ path ≠ []) ∨ (path = change.To.Name ∧ path ≠ [])

/-- Strictly ascending in the byte-wise order of strings. -/
def StrictlyAscending (files : List GoString) : Prop :=
  List.Sorted (List.Lex (fun a b : Nat => a < b)) files

/-! ## Lemmas on maps and sorting -/

theorem mem_mapsKeys_set {V : Type} (m : GoMap V) (k : GoString) (v : V) (x : GoString) :
    x ∈ mapsKeys (m.set k v) ↔ x = k ∨ x ∈ mapsKeys m := by
  induction m with
  | nil => simp [GoMap.set, mapsKeys]
  | cons e rest ih =>
    obtain ⟨k', v'⟩ := e
    unfold GoMap.set
    by_cases h : k' = k
    · subst h
      simp [mapsKeys]
    · simp only [h, if_false]
      simp only [mapsKeys, List.map_cons, List.mem_cons] at ih ⊢
      rw [ih]
      tauto

theorem nodup_mapsKeys_set {V : Type} (m : GoMap V) (k : GoString) (v : V)
    (h : (mapsKeys m).Nodup) : (mapsKeys (m.set k v)).Nodup := by
  induction m with
  | nil => simp [GoMap.set, mapsKeys]
  | cons e rest ih =>
    obtain ⟨k', v'⟩ := e
    unfold GoMap.set
    by_cases hk : k' = k
    · subst hk
      simpa [mapsKeys] using h
    · simp only [hk, if_false]
      have h' : k' ∉ mapsKeys rest ∧ (mapsKeys rest).Nodup := by
        simpa [mapsKeys] using h
      have hmem := mem_mapsKeys_set rest k v k'
      have ih' := ih h'.2
      simp only [mapsKeys, List.map_cons, List.nodup_cons] at ih' hmem ⊢
      refine ⟨?_, ih'⟩
      rw [hmem]
      rintro (h1 | h1)
      · exact hk h1
      · exact h'.1 (by simpa [mapsKeys] using h1)

theorem mem_mapsKeys_recordChange (files : GoMap Bool) (change : Change) (x : GoString) :
    x ∈ mapsKeys (recordChange files change) ↔
      x ∈ mapsKeys files ∨ (x = change.To.Name ∧ x ≠ []) ∨ (x = change.From.Name ∧ x ≠ []) := by
  unfold recordChange
  by_cases hf : change.From.Name = [] <;> by_cases ht : change.To.Name = [] <;>
    simp only [hf, ht, ne_eq, not_true_eq_false, not_false_eq_true, if_true, if_false,
      mem_mapsKeys_set]
  · constructor
    · intro h; exact Or.inl h
    · rintro (h | ⟨h, h'⟩ | ⟨h, h'⟩)
      · exact h
      · exact absurd h h'
      · exact absurd h h'
  · constructor
    · rintro (h | h)
      · exact Or.inr (Or.inl ⟨h, h ▸ ht⟩)
      · exact Or.inl h
    · rintro (h | ⟨h, _⟩ | ⟨h, h'⟩)
      · exact Or.inr h
      · exact Or.inl h
      · exact absurd h h'
  · constructor
    · rintro (h | h)
      · exact Or.inr (Or.inr ⟨h, h ▸ hf⟩)
      · exact Or.inl h
    · rintro (h | ⟨h, h'⟩ | ⟨h, _⟩)
      · exact Or.inr h
      · exact absurd h h'
      · exact Or.inl h
  · constructor
    · rintro (h | h | h)
      · exact Or.inr (Or.inr ⟨h, h ▸ hf⟩)
      · exact Or.inr (Or.inl ⟨h, h ▸ ht⟩)
      · exact Or.inl h
    · rintro (h | ⟨h, _⟩ | ⟨h, _⟩)
      · exact Or.inr (Or.inr h)
      · exact Or.inr (Or.inl h)
      · exact Or.inl h

theorem nodup_mapsKeys_recordChange (files : GoMap Bool) (change : Change)
    (h : (mapsKeys files).Nodup) : (mapsKeys (recordChange files change)).Nodup := by
  unfold recordChange
  by_cases hf : change.From.Name = [] <;> by_cases ht : change.To.Name = [] <;>
    simp only [hf, ht, ne_eq, not_true_eq_false, not_false_eq_true, if_true, if_false]
  · exact h
  · exact nodup_mapsKeys_set _ _ _ h
  · exact nodup_mapsKeys_set _ _ _ h
  · exact nodup_mapsKeys_set _ _ _ (nodup_mapsKeys_set _ _ _ h)

theorem mem_mapsKeys_foldl (changes : List Change) (files : GoMap Bool) (x : GoString) :
    x ∈ mapsKeys (changes.foldl recordChange files) ↔
      x ∈ mapsKeys files ∨
        ∃ change ∈ changes, (x = change.To.Name ∧ x ≠ []) ∨ (x = change.From.Name ∧ x ≠ []) := by
  induction changes generalizing files with
  | nil => simp
  | cons c rest ih =>
    rw [List.foldl_cons, ih, mem_mapsKeys_recordChange]
    simp only [List.mem_cons, exists_eq_or_imp]
    constructor
    · rintro ((h | h) | h)
      · exact Or.inl h
      · exact Or.inr (Or.inl h)
      · exact Or.inr (Or.inr h)
    · rintro (h | h | h)
      · exact Or.inl (Or.inl h)
      · exact Or.inl (Or.inr h)
      · exact Or.inr h

theorem nodup_mapsKeys_foldl (changes : List Change) (files : GoMap Bool)
    (h : (mapsKeys files).Nodup) : (mapsKeys (changes.foldl recordChange files)).Nodup := by
  induction changes generalizing files with
  | nil => simpa using h
  | cons c rest ih =>
    rw [List.foldl_cons]
    exact ih _ (nodup_mapsKeys_recordChange _ _ h)

theorem mem_slicesSorted (seq : List GoString) (x : GoString) :
    x ∈ slicesSorted seq ↔ x ∈ seq := by
  unfold slicesSorted
  exact List.mem_insertionSort _

theorem slicesSorted_strict (seq : List GoString) (h : seq.Nodup) :
    List.Sorted (List.Lex (fun a b : Nat => a < b)) (slicesSorted seq) := by
  have hs : List.Sorted (fun a b : GoString => a ≤ b) (slicesSorted seq) :=
    List.sorted_insertionSort _ seq
  have hn : (slicesSorted seq).Nodup :=
    (List.perm_insertionSort _ seq).nodup_iff.mpr h
  exact hs.lt_of_le hn

/-- The order in which the map is iterated does not show in the sorted keys. -/
theorem slicesSorted_perm (s₁ s₂ : List GoString) (h : s₁.Perm s₂) :
    slicesSorted s₁ = slicesSorted s₂ := by
  have p : (slicesSorted s₁).Perm (slicesSorted s₂) :=
    ((List.perm_insertionSort _ s₁).trans h).trans (List.perm_insertionSort _ s₂).symm
  exact List.eq_of_perm_of_sorted p (List.sorted_insertionSort (fun a b : GoString => a ≤ b) s₁)
    (List.sorted_insertionSort (fun a b : GoString => a ≤ b) s₂)

/-- The sorting algorithm does not show either: a sorted arrangement of the
elements is the result of `slicesSorted`. -/
theorem slicesSorted_unique (seq out : List GoString) (hp : out.Perm seq)
    (hs : List.Sorted (fun a b : GoString => a ≤ b) out) : out = slicesSorted seq :=
  List.eq_of_perm_of_sorted (hp.trans (List.perm_insertionSort _ seq).symm) hs
    (List.sorted_insertionSort (fun a b : GoString => a ≤ b) seq)

theorem changedFiles_strict (changes : List Change) :
    List.Sorted (List.Lex (fun a b : Nat => a < b)) (changedFiles changes) :=
  slicesSorted_strict _ (nodup_mapsKeys_foldl changes [] (by simp [mapsKeys]))


/-! ## Lemmas on the history walk and the indexing loop -/

theorem walkLog_of_mem (stopAt : PlumbingHash) (final : String) (pending commits : List Commit)
    (h : stopAt ∈ pending.map (fun c => c.Hash)) :
    walkLog stopAt final pending commits =
      .ok (commits ++ pending.takeWhile (fun c => decide (c.Hash ≠ stopAt))) := by
  induction pending generalizing commits with
  | nil => simp at h
  | cons c rest ih =>
    unfold walkLog
    by_cases hc : c.Hash = stopAt
    · simp [hc, List.takeWhile]
    · have hrest : stopAt ∈ rest.map (fun c => c.Hash) := by
        simp only [List.map_cons, List.mem_cons] at h
        rcases h with h | h
        · exact absurd h.symm hc
        · exact h
      simp only [hc, if_false]
      rw [ih _ hrest]
      simp [List.takeWhile, hc]

theorem walkLog_of_not_mem (stopAt : PlumbingHash) (final : String)
    (pending commits : List Commit) (h : stopAt ∉ pending.map (fun c => c.Hash)) :
    walkLog stopAt final pending commits = .error final := by
  induction pending generalizing commits with
  | nil => rfl
  | cons c rest ih =>
    unfold walkLog
    simp only [List.map_cons, List.mem_cons, not_or] at h
    have hc : ¬ c.Hash = stopAt := fun e => h.1 e.symm
    simp only [hc, if_false]
    exact ih _ h.2

theorem takeWhile_split (stopAt : PlumbingHash) (pending : List Commit)
    (h : stopAt ∈ pending.map (fun c => c.Hash)) :
    ∃ stop rest, stop.Hash = stopAt ∧
      pending = pending.takeWhile (fun c => decide (c.Hash ≠ stopAt)) ++ stop :: rest := by
  induction pending with
  | nil => simp at h
  | cons c rest ih =>
    by_cases hc : c.Hash = stopAt
    · exact ⟨c, rest, hc, by simp [List.takeWhile, hc]⟩
    · have hrest : stopAt ∈ rest.map (fun c => c.Hash) := by
        simp only [List.map_cons, List.mem_cons] at h
        rcases h with h | h
        · exact absurd h.symm hc
        · exact h
      obtain ⟨stop, tl, hs, htl⟩ := ih hrest
      refine ⟨stop, tl, hs, ?_⟩
      simp only [List.takeWhile, hc, ne_eq, not_false_eq_true, decide_True, List.cons_append]
      exact congrArg (List.cons c) htl

theorem not_mem_takeWhile (stopAt : PlumbingHash) (pending : List Commit) :
    stopAt ∉ (pending.takeWhile (fun c => decide (c.Hash ≠ stopAt))).map (fun c => c.Hash) := by
  intro h
  obtain ⟨c, hc, hh⟩ := List.mem_map.mp h
  have := List.mem_takeWhile_imp hc
  simp at this
  exact this hh

/-- What the turn of a pull request in the loop went through when it ends with a file list. -/
theorem prFiles_ok (g : GitRepo) (pr : PullRequest) (files : List GoString)
    (h : prFiles g pr = .ok files) :
    ∃ headCommit baseCommit mb commitIter commits oldest newest baseTree headTree changes,
      g.CommitObject (g.NewHash pr.CommitSHA) = .ok headCommit ∧
      g.CommitObject (g.NewHash pr.BaseSHA) = .ok baseCommit ∧
      g.MergeBase headCommit baseCommit = .ok [mb] ∧
      g.Log (g.NewHash pr.CommitSHA) = .ok commitIter ∧
      walkLog mb.Hash commitIter.final commitIter.pending [] = .ok commits ∧
      commits.getLast? = some oldest ∧ commits.head? = some newest ∧
      g.TreeOf oldest = .ok baseTree ∧ g.TreeOf newest = .ok headTree ∧
      g.Diff baseTree headTree = .ok changes ∧ files = changedFiles changes := by
  unfold prFiles at h
  split at h
  · cases h
  rename_i headCommit hhead
  split at h
  · cases h
  rename_i baseCommit hbase
  split at h
  · cases h
  rename_i mergeBase hmb
  split at h
  · cases h
  rename_i hlen0
  split at h
  · cases h
  rename_i hlen1
  split at h
  · cases h
  rename_i commitIter hlog
  split at h
  · cases h
  rename_i mb hmbhead
  simp only at h
  split at h
  · cases h
  rename_i commits hwalk
  unfold diffCommits at h
  split at h
  · cases h
  rename_i oldest hold
  split at h
  · cases h
  rename_i baseTree hbt
  split at h
  · cases h
  rename_i newest hnew
  split at h
  · cases h
  rename_i headTree hht
  split at h
  · cases h
  rename_i changes hdiff
  have hone : mergeBase = [mb] := by
    match mergeBase, hlen0, hlen1, hmbhead with
    | [m], _, _, hm => simpa using hm
    | _ :: _ :: _, _, h1, _ => simp at h1
  subst hone
  refine ⟨headCommit, baseCommit, mb, commitIter, commits, oldest, newest, baseTree, headTree,
    changes, hhead, hbase, hmb, hlog, hwalk, hold, hnew, hbt, hht, hdiff, ?_⟩
  cases h
  rfl

/-- The record of a pull request after its turn in the loop. -/
theorem indexLoop_ok (g : GitRepo) (prs out : List PullRequest)
    (h : indexLoop g prs = (out, none)) :
    ∀ pr ∈ out, ∃ changes, pr.Files = changedFiles changes := by
  induction prs generalizing out with
  | nil =>
    simp only [indexLoop, Prod.mk.injEq] at h
    intro pr hpr
    rw [← h.1] at hpr
    cases hpr
  | cons p rest ih =>
    unfold indexLoop at h
    split at h
    · simp at h
    · rename_i files hfiles
      simp only [Prod.mk.injEq] at h
      obtain ⟨h1, h2⟩ := h
      intro pr hpr
      rw [← h1] at hpr
      rcases List.mem_cons.mp hpr with hp | hp
      · obtain ⟨_, _, _, _, _, _, _, _, _, changes, _, _, _, _, _, _, _, _, _, _, hf⟩ :=
          prFiles_ok g p files hfiles
        exact ⟨changes, by rw [hp]; exact hf⟩
      · exact ih (indexLoop g rest).1 (Prod.ext rfl h2) pr hp


theorem indexLoop_fail (g : GitRepo) (pr : PullRequest) (rest : List PullRequest) (e : Fault)
    (h : prFiles g pr = .error e) : indexLoop g (pr :: rest) = (pr :: rest, some e) := by
  simp [indexLoop, h]

theorem indexLoop_append (g : GitRepo) (before l : List PullRequest)
    (h : ∀ q ∈ before, ∃ files, prFiles g q = .ok files) :
    indexLoop g (before ++ l) =
      (before.map (indexed g) ++ (indexLoop g l).1, (indexLoop g l).2) := by
  induction before with
  | nil => simp
  | cons q rest ih =>
    obtain ⟨files, hq⟩ := h q (List.mem_cons_self _ _)
    have ih' := ih (fun x hx => h x (List.mem_cons_of_mem _ hx))
    simp only [List.cons_append, indexLoop, hq, List.append_eq, ih', List.map_cons, indexed]

theorem indexPullRequests_first_failure (s : Services) (r : Repository)
    (listed : List GithubPullRequest) (g : GitRepo) (before : List PullRequest)
    (pr : PullRequest) (rest : List PullRequest) (e : Fault)
    (hl : s.ListPullRequests = .ok listed) (ho : s.PlainOpen r.basePath = .ok g)
    (hp : newPullRequests listed = before ++ pr :: rest)
    (hb : ∀ q ∈ before, ∃ files, prFiles g q = .ok files)
    (hf : prFiles g pr = .error e) :
    indexPullRequests s r = (r, some e) := by
  unfold indexPullRequests
  simp only [hl, ho, hp]
  rw [indexLoop_append g before _ hb, indexLoop_fail g pr rest e hf]

/-! ## The pull-request indexer -/

/-- C1, on the store of the example: for the pull request with head `b2` and
base `cc` the only merge base is `aa`, and diffing the tree of `aa` against
the tree of `b2` names `b` and `c`; `indexPullRequests` indexes the pull
request successfully with `Files` equal to `c` alone, because the base side
of its diff is the tree of `b1`, the last commit the walk collected. -/
theorem indexPullRequests_base_side_is_last_walked_commit :
    (Fixture.services [Fixture.listed 1 "b2" "cc"]).ListPullRequests
        = .ok [Fixture.listed 1 "b2" "cc"] ∧
      Fixture.gitRepo.MergeBase Fixture.commitB2 Fixture.commitCC = .ok [Fixture.commitAA] ∧
      (∃ base head changes,
        Fixture.gitRepo.TreeOf Fixture.commitAA = .ok base ∧
        Fixture.gitRepo.TreeOf Fixture.commitB2 = .ok head ∧
        Fixture.gitRepo.Diff base head = .ok changes ∧
        changedFiles changes = [bytes "b", bytes "c"]) ∧
      indexPullRequests (Fixture.services [Fixture.listed 1 "b2" "cc"]) Fixture.repository =
        ({ Fixture.repository with
            pullRequests := [{ Fixture.pullRequest 1 "b2" "cc" with Files := [bytes "c"] }] },
          none) ∧
      (∃ base head changes,
        Fixture.gitRepo.TreeOf Fixture.commitB1 = .ok base ∧
        Fixture.gitRepo.TreeOf Fixture.commitB2 = .ok head ∧
        Fixture.gitRepo.Diff base head = .ok changes ∧
        changedFiles changes = [bytes "c"]) :=
  ⟨rfl, rfl, ⟨_, _, _, rfl, rfl, rfl, rfl⟩, rfl, ⟨_, _, _, rfl, rfl, rfl, rfl⟩⟩

theorem mem_changedFiles (changes : List Change) (path : GoString) :
    path ∈ changedFiles changes ↔ ∃ change ∈ changes, change.names path := by
  unfold changedFiles
  rw [mem_slicesSorted, mem_mapsKeys_foldl]
  simp only [mapsKeys, List.map_nil, List.not_mem_nil, false_or, Change.names]
  constructor
  · rintro ⟨c, hc, h | h⟩
    · exact ⟨c, hc, Or.inr h⟩
    · exact ⟨c, hc, Or.inl h⟩
  · rintro ⟨c, hc, h | h⟩
    · exact ⟨c, hc, Or.inr h⟩
    · exact ⟨c, hc, Or.inl h⟩

/-- The turn of a pull request that reaches the tree diff ends with the names of the changes. -/
theorem prFiles_of_diff (g : GitRepo) (pr : PullRequest)
    (headCommit baseCommit mb : Commit) (commitIter : CommitIter) (commits : List Commit)
    (oldest newest : Commit) (baseTree headTree : Tree) (changes : List Change)
    (hh : g.CommitObject (g.NewHash pr.CommitSHA) = .ok headCommit)
    (hb : g.CommitObject (g.NewHash pr.BaseSHA) = .ok baseCommit)
    (hm : g.MergeBase headCommit baseCommit = .ok [mb])
    (hlog : g.Log (g.NewHash pr.CommitSHA) = .ok commitIter)
    (hwalk : walkLog mb.Hash commitIter.final commitIter.pending [] = .ok commits)
    (hold : commits.getLast? = some oldest) (hnew : commits.head? = some newest)
    (hbt : g.TreeOf oldest = .ok baseTree) (hht : g.TreeOf newest = .ok headTree)
    (hdiff : g.Diff baseTree headTree = .ok changes) :
    prFiles g pr = .ok (changedFiles changes) := by
  unfold prFiles diffCommits
  simp only [hh, hb, hm, hlog, List.length_singleton, one_ne_zero, if_false, gt_iff_lt,
    lt_self_iff_false, List.head?_cons, hwalk, hold, hnew, hbt, hht, hdiff]

/-- C2: in the turn of a pull request, for every list of changes that the
tree diff returns, the turn ends without error with a file list in which a
path occurs if and only if some change of the list names it (as its
non-empty `From` name or its non-empty `To` name), an empty list of changes
gives the empty file list, and the loop assigns that list to the `Files` of
the record; and a turn ends with a file list in no other way: the list is
made of the names of the changes the diff returned in that turn. -/
theorem prFiles_files_are_names_of_changes (g : GitRepo) (pr : PullRequest) :
    (∀ (headCommit baseCommit mb : Commit) (commitIter : CommitIter) (commits : List Commit)
        (oldest newest : Commit) (baseTree headTree : Tree) (changes : List Change),
        g.CommitObject (g.NewHash pr.CommitSHA) = .ok headCommit →
        g.CommitObject (g.NewHash pr.BaseSHA) = .ok baseCommit →
        g.MergeBase headCommit baseCommit = .ok [mb] →
        g.Log (g.NewHash pr.CommitSHA) = .ok commitIter →
        walkLog mb.Hash commitIter.final commitIter.pending [] = .ok commits →
        commits.getLast? = some oldest → commits.head? = some newest →
        g.TreeOf oldest = .ok baseTree → g.TreeOf newest = .ok headTree →
        g.Diff baseTree headTree = .ok changes →
        ∃ files, prFiles g pr = .ok files ∧
          (∀ path, path ∈ files ↔ ∃ change ∈ changes, change.names path) ∧
          (changes = [] → files = []) ∧
          ∀ rest, indexLoop g (pr :: rest) =
            ({ pr with Files := files } :: (indexLoop g rest).1, (indexLoop g rest).2)) ∧
      (∀ files, prFiles g pr = .ok files →
        ∃ (headCommit baseCommit mb : Commit) (commitIter : CommitIter) (commits : List Commit)
          (oldest newest : Commit) (baseTree headTree : Tree) (changes : List Change),
          g.CommitObject (g.NewHash pr.CommitSHA) = .ok headCommit ∧
          g.CommitObject (g.NewHash pr.BaseSHA) = .ok baseCommit ∧
          g.MergeBase headCommit baseCommit = .ok [mb] ∧
          g.Log (g.NewHash pr.CommitSHA) = .ok commitIter ∧
          walkLog mb.Hash commitIter.final commitIter.pending [] = .ok commits ∧
          commits.getLast? = some oldest ∧ commits.head? = some newest ∧
          g.TreeOf oldest = .ok baseTree ∧ g.TreeOf newest = .ok headTree ∧
          g.Diff baseTree headTree = .ok changes ∧
          ∀ path, path ∈ files ↔ ∃ change ∈ changes, change.names path) := by
  constructor
  · intro headCommit baseCommit mb commitIter commits oldest newest baseTree headTree changes
      hh hb hm hlog hwalk hold hnew hbt hht hdiff
    have hf := prFiles_of_diff g pr headCommit baseCommit mb commitIter commits oldest newest
      baseTree headTree changes hh hb hm hlog hwalk hold hnew hbt hht hdiff
    refine ⟨changedFiles changes, hf, fun path => mem_changedFiles changes path, ?_, ?_⟩
    · intro he
      rw [he]
      rfl
    · intro rest
      simp only [indexLoop, hf]
  · intro files h
    obtain ⟨headCommit, baseCommit, mb, commitIter, commits, oldest, newest, baseTree, headTree,
      changes, hh, hb, hm, hlog, hwalk, hold, hnew, hbt, hht, hdiff, hf⟩ := prFiles_ok g pr files h
    refine ⟨headCommit, baseCommit, mb, commitIter, commits, oldest, newest, baseTree, headTree,
      changes, hh, hb, hm, hlog, hwalk, hold, hnew, hbt, hht, hdiff, ?_⟩
    intro path
    rw [hf]
    exact mem_changedFiles changes path

/-- On the store of the example: the pull request with head `b3` and base
`cc` walks `b3`, `b2`, `b1`; the diff of the tree of `b1` against the tree of
`b3` returns a modification of `a` and insertions of `Z` and `c`, and the
record gets those three names. -/
theorem prFiles_files_are_names_of_changes_witness :
    prFiles Fixture.gitRepo (Fixture.pullRequest 1 "b3" "cc") =
        .ok [bytes "Z", bytes "a", bytes "c"] ∧
      ∃ files, prFiles Fixture.gitRepo (Fixture.pullRequest 1 "b3" "cc") = .ok files ∧
        (∀ path, path ∈ files ↔
          ∃ change ∈ [({ From := { Name := bytes "a" }, To := { Name := bytes "a" } } : Change),
              { From := { Name := [] }, To := { Name := bytes "Z" } },
              { From := { Name := [] }, To := { Name := bytes "c" } }],
            change.names path) ∧
        (([({ From := { Name := bytes "a" }, To := { Name := bytes "a" } } : Change),
              { From := { Name := [] }, To := { Name := bytes "Z" } },
              { From := { Name := [] }, To := { Name := bytes "c" } }] = []) → files = []) ∧
        ∀ rest, indexLoop Fixture.gitRepo (Fixture.pullRequest 1 "b3" "cc" :: rest) =
          ({ Fixture.pullRequest 1 "b3" "cc" with Files := files } ::
            (indexLoop Fixture.gitRepo rest).1, (indexLoop Fixture.gitRepo rest).2) :=
  ⟨rfl, (prFiles_files_are_names_of_changes Fixture.gitRepo (Fixture.pullRequest 1 "b3" "cc")).1
    Fixture.commitB3 Fixture.commitCC Fixture.commitAA
    { pending := [Fixture.commitB3, Fixture.commitB2, Fixture.commitB1, Fixture.commitAA],
      final := "EOF" }
    [Fixture.commitB3, Fixture.commitB2, Fixture.commitB1] Fixture.commitB1 Fixture.commitB3
    { Entries := [(bytes "a", bytes "1"), (bytes "b", bytes "2")] }
    { Entries := [(bytes "Z", bytes "1"), (bytes "a", bytes "2"), (bytes "b", bytes "2"),
                  (bytes "c", bytes "1")] }
    _ rfl rfl rfl rfl rfl rfl rfl rfl rfl rfl⟩

/-- C3: when `indexPullRequests` returns without error, the `Files` of every
pull request it stored is strictly ascending in the byte-wise order of
strings, hence sorted and without duplicates. -/
theorem indexPullRequests_files_strictly_ascending (s : Services) (r r' : Repository)
    (h : indexPullRequests s r = (r', none)) :
    ∀ pr ∈ r'.pullRequests, StrictlyAscending pr.Files := by
  unfold indexPullRequests at h
  split at h
  · simp at h
  split at h
  · simp at h
  rename_i g _
  simp only at h
  split at h
  · simp at h
  rename_i prs hloop
  simp only [Prod.mk.injEq, and_true] at h
  intro pr hpr
  rw [← h] at hpr
  obtain ⟨changes, hc⟩ := indexLoop_ok g _ prs hloop pr hpr
  rw [hc]
  exact changedFiles_strict changes

theorem indexPullRequests_files_strictly_ascending_witness :
    indexPullRequests
        (Fixture.services [Fixture.listed 1 "b3" "cc", Fixture.listed 3 "b2" "cc"])
        Fixture.repository =
      ({ Fixture.repository with
          pullRequests :=
            [{ Fixture.pullRequest 1 "b3" "cc" with Files := [bytes "Z", bytes "a", bytes "c"] },
             { Fixture.pullRequest 3 "b2" "cc" with Files := [bytes "c"] }] }, none) ∧
    ∀ pr ∈ ({ Fixture.repository with
          pullRequests :=
            [{ Fixture.pullRequest 1 "b3" "cc" with Files := [bytes "Z", bytes "a", bytes "c"] },
             { Fixture.pullRequest 3 "b2" "cc" with Files := [bytes "c"] }] } :
          Repository).pullRequests,
      StrictlyAscending pr.Files :=
  ⟨rfl, indexPullRequests_files_strictly_ascending
    (Fixture.services [Fixture.listed 1 "b3" "cc", Fixture.listed 3 "b2" "cc"])
    Fixture.repository _ rfl⟩


theorem prFiles_merge_base_count (g : GitRepo) (pr : PullRequest)
    (headCommit baseCommit : Commit) (mergeBase : List Commit)
    (hh : g.CommitObject (g.NewHash pr.CommitSHA) = .ok headCommit)
    (hb : g.CommitObject (g.NewHash pr.BaseSHA) = .ok baseCommit)
    (hm : g.MergeBase headCommit baseCommit = .ok mergeBase)
    (hlen : mergeBase.length ≠ 1) :
    prFiles g pr = .error (if mergeBase.length = 0 then Fault.noMergeBase pr.Number
      else Fault.multipleMergeBases pr.Number) := by
  unfold prFiles
  simp only [hh, hb, hm]
  by_cases h0 : mergeBase.length = 0
  · simp [h0]
  · have h1 : mergeBase.length > 1 := by omega
    simp [h0, h1]

theorem prFiles_walk_fails (g : GitRepo) (pr : PullRequest)
    (headCommit baseCommit mb : Commit) (commitIter : CommitIter)
    (hh : g.CommitObject (g.NewHash pr.CommitSHA) = .ok headCommit)
    (hb : g.CommitObject (g.NewHash pr.BaseSHA) = .ok baseCommit)
    (hm : g.MergeBase headCommit baseCommit = .ok [mb])
    (hlog : g.Log (g.NewHash pr.CommitSHA) = .ok commitIter)
    (hnot : mb.Hash ∉ commitIter.pending.map (fun c => c.Hash)) :
    prFiles g pr = .error (.walkingLog pr.Number pr.CommitSHA commitIter.final) := by
  unfold prFiles
  simp only [hh, hb, hm, hlog, List.length_singleton, one_ne_zero, if_false, gt_iff_lt,
    lt_self_iff_false, List.head?_cons, walkLog_of_not_mem _ _ _ _ hnot]

theorem newPullRequests_files (listed : List GithubPullRequest) (pr : PullRequest)
    (h : pr ∈ newPullRequests listed) : pr.Files = [] := by
  unfold newPullRequests at h
  obtain ⟨p, _, hp⟩ := List.mem_map.mp h
  rw [← hp]

/-- C4 fails on the store of the example: of three listed pull requests only
the second fails to resolve (its head `99` is not in the store; the first and
the third index well on their own), yet `indexPullRequests` returns the
error of the second without storing anything, and `ListPullRequests` returns
no pull request afterwards: neither the first nor the third is available. -/
theorem indexPullRequests_failure_aborts_batch_example :
    prFiles Fixture.gitRepo (Fixture.pullRequest 1 "b2" "cc") = .ok [bytes "c"] ∧
      prFiles Fixture.gitRepo (Fixture.pullRequest 2 "99" "cc") =
        .error (.headCommit (bytes "99") 2 "object not found") ∧
      prFiles Fixture.gitRepo (Fixture.pullRequest 3 "b2" "cc") = .ok [bytes "c"] ∧
      indexPullRequests
          (Fixture.services
            [Fixture.listed 1 "b2" "cc", Fixture.listed 2 "99" "cc", Fixture.listed 3 "b2" "cc"])
          Fixture.repository =
        (Fixture.repository, some (.headCommit (bytes "99") 2 "object not found")) ∧
      ListPullRequests (indexPullRequests
          (Fixture.services
            [Fixture.listed 1 "b2" "cc", Fixture.listed 2 "99" "cc", Fixture.listed 3 "b2" "cc"])
          Fixture.repository).1 = .ok [] ∧
      ¬ ∃ q ∈ (indexPullRequests
          (Fixture.services
            [Fixture.listed 1 "b2" "cc", Fixture.listed 2 "99" "cc", Fixture.listed 3 "b2" "cc"])
          Fixture.repository).1.pullRequests, q.Number = 1 ∨ q.Number = 3 :=
  ⟨rfl, rfl, rfl, rfl, rfl, fun ⟨_, hq, _⟩ => nomatch hq⟩

/-- C4, amended: the failure of one pull request aborts the batch. When the pull
requests listed before it index well and its own turn fails,
`indexPullRequests` returns that one fault, stores nothing in the repository
(`ListPullRequests` returns what it returned before the call), and the loop
leaves the failing record and every record after it as they were. -/
theorem indexPullRequests_stops_at_first_failure (s : Services) (r : Repository)
    (listed : List GithubPullRequest) (g : GitRepo) (before : List PullRequest)
    (pr : PullRequest) (rest : List PullRequest) (e : Fault)
    (hl : s.ListPullRequests = .ok listed) (ho : s.PlainOpen r.basePath = .ok g)
    (hp : newPullRequests listed = before ++ pr :: rest)
    (hb : ∀ q ∈ before, ∃ files, prFiles g q = .ok files)
    (hf : prFiles g pr = .error e) :
    indexPullRequests s r = (r, some e) ∧
      ListPullRequests (indexPullRequests s r).1 = ListPullRequests r ∧
      indexLoop g (newPullRequests listed) = (before.map (indexed g) ++ pr :: rest, some e) := by
  have h1 := indexPullRequests_first_failure s r listed g before pr rest e hl ho hp hb hf
  refine ⟨h1, by rw [h1], ?_⟩
  rw [hp, indexLoop_append g before _ hb, indexLoop_fail g pr rest e hf]

theorem indexPullRequests_stops_at_first_failure_witness :
    indexPullRequests
        (Fixture.services
          [Fixture.listed 1 "b2" "cc", Fixture.listed 2 "99" "cc", Fixture.listed 3 "b2" "cc"])
        Fixture.repository =
      (Fixture.repository, some (.headCommit (bytes "99") 2 "object not found")) ∧
    ListPullRequests (indexPullRequests
        (Fixture.services
          [Fixture.listed 1 "b2" "cc", Fixture.listed 2 "99" "cc", Fixture.listed 3 "b2" "cc"])
        Fixture.repository).1 = ListPullRequests Fixture.repository ∧
    indexLoop Fixture.gitRepo (newPullRequests
        [Fixture.listed 1 "b2" "cc", Fixture.listed 2 "99" "cc", Fixture.listed 3 "b2" "cc"]) =
      ([Fixture.pullRequest 1 "b2" "cc"].map (indexed Fixture.gitRepo) ++
        Fixture.pullRequest 2 "99" "cc" :: [Fixture.pullRequest 3 "b2" "cc"],
        some (.headCommit (bytes "99") 2 "object not found")) :=
  indexPullRequests_stops_at_first_failure
    (Fixture.services
      [Fixture.listed 1 "b2" "cc", Fixture.listed 2 "99" "cc", Fixture.listed 3 "b2" "cc"])
    Fixture.repository
    [Fixture.listed 1 "b2" "cc", Fixture.listed 2 "99" "cc", Fixture.listed 3 "b2" "cc"]
    Fixture.gitRepo [Fixture.pullRequest 1 "b2" "cc"] (Fixture.pullRequest 2 "99" "cc")
    [Fixture.pullRequest 3 "b2" "cc"] (.headCommit (bytes "99") 2 "object not found")
    rfl rfl rfl
    (by intro q hq; rw [List.mem_singleton] at hq; subst hq; exact ⟨_, rfl⟩)
    rfl

/-- C5: when the head and the base commit of a pull request resolve and the
merge-base result does not have exactly one element, the turn of the pull
request stops with the error "no merge base found" (zero elements) or
"multiple merge bases found" (more than one); `indexPullRequests`, having indexed the pull
requests before it, returns that error, and the record keeps the unset
`Files` it was created with. -/
theorem indexPullRequests_needs_single_merge_base (s : Services) (r : Repository)
    (listed : List GithubPullRequest) (g : GitRepo) (before : List PullRequest)
    (pr : PullRequest) (rest : List PullRequest)
    (headCommit baseCommit : Commit) (mergeBase : List Commit)
    (hl : s.ListPullRequests = .ok listed) (ho : s.PlainOpen r.basePath = .ok g)
    (hp : newPullRequests listed = before ++ pr :: rest)
    (hb : ∀ q ∈ before, ∃ files, prFiles g q = .ok files)
    (hh : g.CommitObject (g.NewHash pr.CommitSHA) = .ok headCommit)
    (hbase : g.CommitObject (g.NewHash pr.BaseSHA) = .ok baseCommit)
    (hm : g.MergeBase headCommit baseCommit = .ok mergeBase)
    (hlen : mergeBase.length ≠ 1) :
    ∃ e, (mergeBase.length = 0 → e = Fault.noMergeBase pr.Number) ∧
      (mergeBase.length > 1 → e = Fault.multipleMergeBases pr.Number) ∧
      e.isError = true ∧
      prFiles g pr = .error e ∧
      indexPullRequests s r = (r, some e) ∧
      indexLoop g (newPullRequests listed) = (before.map (indexed g) ++ pr :: rest, some e) ∧
      pr.Files = [] := by
  have hf := prFiles_merge_base_count g pr headCommit baseCommit mergeBase hh hbase hm hlen
  refine ⟨_, ?_, ?_, ?_, hf,
    indexPullRequests_first_failure s r listed g before pr rest _ hl ho hp hb hf, ?_,
    newPullRequests_files listed pr (by rw [hp]; simp)⟩
  · intro h0; simp [h0]
  · intro h1
    have h0 : mergeBase.length ≠ 0 := by omega
    simp [h0]
  · by_cases h0 : mergeBase.length = 0 <;> simp [h0, Fault.isError]
  · rw [hp, indexLoop_append g before _ hb, indexLoop_fail g pr rest _ hf]

theorem indexPullRequests_needs_single_merge_base_witness :
    ∃ e, (([] : List Commit).length = 0 → e = Fault.noMergeBase (Fixture.pullRequest 4 "dd" "cc").Number) ∧
      (([] : List Commit).length > 1 →
        e = Fault.multipleMergeBases (Fixture.pullRequest 4 "dd" "cc").Number) ∧
      e.isError = true ∧
      prFiles Fixture.gitRepo (Fixture.pullRequest 4 "dd" "cc") = .error e ∧
      indexPullRequests
          (Fixture.services [Fixture.listed 1 "b2" "cc", Fixture.listed 4 "dd" "cc"])
          Fixture.repository = (Fixture.repository, some e) ∧
      indexLoop Fixture.gitRepo
          (newPullRequests [Fixture.listed 1 "b2" "cc", Fixture.listed 4 "dd" "cc"]) =
        ([Fixture.pullRequest 1 "b2" "cc"].map (indexed Fixture.gitRepo) ++
          Fixture.pullRequest 4 "dd" "cc" :: [], some e) ∧
      (Fixture.pullRequest 4 "dd" "cc").Files = [] :=
  indexPullRequests_needs_single_merge_base
    (Fixture.services [Fixture.listed 1 "b2" "cc", Fixture.listed 4 "dd" "cc"])
    Fixture.repository [Fixture.listed 1 "b2" "cc", Fixture.listed 4 "dd" "cc"]
    Fixture.gitRepo [Fixture.pullRequest 1 "b2" "cc"] (Fixture.pullRequest 4 "dd" "cc") []
    Fixture.commitDD Fixture.commitCC []
    rfl rfl rfl
    (by intro q hq; rw [List.mem_singleton] at hq; subst hq; exact ⟨_, rfl⟩)
    rfl rfl rfl (by decide)

/-- The walk on a log that contains the stop hash: the log is the collected
commits, then a commit with the stop hash, then the remainder. -/
theorem walkLog_split (stopAt : PlumbingHash) (final : String)
    (pending : List Commit) (h : stopAt ∈ pending.map (fun c => c.Hash)) :
    ∃ commits stop rest,
      walkLog stopAt final pending [] = .ok commits ∧
      pending = commits ++ stop :: rest ∧
      stop.Hash = stopAt ∧
      stopAt ∉ commits.map (fun c => c.Hash) := by
  obtain ⟨stop, rest, hs, hsplit⟩ := takeWhile_split stopAt pending h
  refine ⟨pending.takeWhile (fun c => decide (c.Hash ≠ stopAt)), stop, rest, ?_, hsplit, hs,
    not_mem_takeWhile stopAt pending⟩
  rw [walkLog_of_mem stopAt final pending [] h, List.nil_append]

/-- C6: in the turn of a pull request whose head and base commit resolve,
whose merge-base result is the single commit `mb` and whose log, read from
the head, contains the hash of `mb`: the walk ends well, and the commits it
collected are the log entries before the first occurrence of that hash, in
log order and each once (the log is the collected commits, then a commit with
the hash of `mb`, then the remainder, and no collected commit has that hash);
the turn goes on with exactly these commits. -/
theorem prFiles_walk_collects_commits_before_merge_base (g : GitRepo) (pr : PullRequest)
    (headCommit baseCommit mb : Commit) (commitIter : CommitIter)
    (hh : g.CommitObject (g.NewHash pr.CommitSHA) = .ok headCommit)
    (hb : g.CommitObject (g.NewHash pr.BaseSHA) = .ok baseCommit)
    (hm : g.MergeBase headCommit baseCommit = .ok [mb])
    (hlog : g.Log (g.NewHash pr.CommitSHA) = .ok commitIter)
    (hmem : mb.Hash ∈ commitIter.pending.map (fun c => c.Hash)) :
    ∃ commits stop rest,
      commitIter.pending = commits ++ stop :: rest ∧
      stop.Hash = mb.Hash ∧
      mb.Hash ∉ commits.map (fun c => c.Hash) ∧
      walkLog mb.Hash commitIter.final commitIter.pending [] = .ok commits ∧
      prFiles g pr = diffCommits g pr commits := by
  obtain ⟨commits, stop, rest, hwalk, hsplit, hs, hnot⟩ :=
    walkLog_split mb.Hash commitIter.final commitIter.pending hmem
  refine ⟨commits, stop, rest, hsplit, hs, hnot, hwalk, ?_⟩
  unfold prFiles
  simp only [hh, hb, hm, hlog, List.length_singleton, one_ne_zero, if_false, gt_iff_lt,
    lt_self_iff_false, List.head?_cons, hwalk]

/-- On the store of the example: the pull request with head `b2` and base
`cc` has the merge base `aa` and the log `b2`, `b1`, `aa`; the walk collects
`b2` and `b1`, and the turn goes on with these two. -/
theorem prFiles_walk_collects_commits_before_merge_base_witness :
    walkLog (bytes "aa") "EOF" [Fixture.commitB2, Fixture.commitB1, Fixture.commitAA] [] =
        .ok [Fixture.commitB2, Fixture.commitB1] ∧
      prFiles Fixture.gitRepo (Fixture.pullRequest 1 "b2" "cc") =
        diffCommits Fixture.gitRepo (Fixture.pullRequest 1 "b2" "cc")
          [Fixture.commitB2, Fixture.commitB1] ∧
      ∃ commits stop rest,
        [Fixture.commitB2, Fixture.commitB1, Fixture.commitAA] = commits ++ stop :: rest ∧
        stop.Hash = Fixture.commitAA.Hash ∧
        Fixture.commitAA.Hash ∉ commits.map (fun c => c.Hash) ∧
        walkLog Fixture.commitAA.Hash "EOF"
          [Fixture.commitB2, Fixture.commitB1, Fixture.commitAA] [] = .ok commits ∧
        prFiles Fixture.gitRepo (Fixture.pullRequest 1 "b2" "cc") =
          diffCommits Fixture.gitRepo (Fixture.pullRequest 1 "b2" "cc") commits :=
  ⟨rfl, rfl, prFiles_walk_collects_commits_before_merge_base Fixture.gitRepo
    (Fixture.pullRequest 1 "b2" "cc") Fixture.commitB2 Fixture.commitCC Fixture.commitAA
    { pending := [Fixture.commitB2, Fixture.commitB1, Fixture.commitAA], final := "EOF" }
    rfl rfl rfl rfl (by decide)⟩

/-- C7: when the commit log (a finite list) does not contain the hash of the
single merge base, the walk ends with the error of the exhausted iterator,
the turn of the pull request ends with the error "walking commit log" and no file
list, and `indexPullRequests`, having indexed the pull requests before it,
returns that error. -/
theorem indexPullRequests_merge_base_not_in_log (s : Services) (r : Repository)
    (listed : List GithubPullRequest) (g : GitRepo) (before : List PullRequest)
    (pr : PullRequest) (rest : List PullRequest)
    (headCommit baseCommit mb : Commit) (commitIter : CommitIter)
    (hl : s.ListPullRequests = .ok listed) (ho : s.PlainOpen r.basePath = .ok g)
    (hp : newPullRequests listed = before ++ pr :: rest)
    (hb : ∀ q ∈ before, ∃ files, prFiles g q = .ok files)
    (hh : g.CommitObject (g.NewHash pr.CommitSHA) = .ok headCommit)
    (hbase : g.CommitObject (g.NewHash pr.BaseSHA) = .ok baseCommit)
    (hm : g.MergeBase headCommit baseCommit = .ok [mb])
    (hlog : g.Log (g.NewHash pr.CommitSHA) = .ok commitIter)
    (hnot : mb.Hash ∉ commitIter.pending.map (fun c => c.Hash)) :
    walkLog mb.Hash commitIter.final commitIter.pending [] = .error commitIter.final ∧
      prFiles g pr = .error (.walkingLog pr.Number pr.CommitSHA commitIter.final) ∧
      indexPullRequests s r =
        (r, some (.walkingLog pr.Number pr.CommitSHA commitIter.final)) ∧
      indexLoop g (newPullRequests listed) =
        (before.map (indexed g) ++ pr :: rest,
          some (.walkingLog pr.Number pr.CommitSHA commitIter.final)) := by
  have hf := prFiles_walk_fails g pr headCommit baseCommit mb commitIter hh hbase hm hlog hnot
  refine ⟨walkLog_of_not_mem _ _ _ _ hnot, hf,
    indexPullRequests_first_failure s r listed g before pr rest _ hl ho hp hb hf, ?_⟩
  rw [hp, indexLoop_append g before _ hb, indexLoop_fail g pr rest _ hf]

theorem indexPullRequests_merge_base_not_in_log_witness :
    walkLog Fixture.commitAA.Hash "object not found" [Fixture.commitB2, Fixture.commitB1] [] =
        .error "object not found" ∧
      prFiles Fixture.cutRepo (Fixture.pullRequest 5 "b2" "cc") =
        .error (.walkingLog 5 (bytes "b2") "object not found") ∧
      indexPullRequests
          { ListPullRequests := .ok [Fixture.listed 5 "b2" "cc"],
            PlainOpen := fun _ => .ok Fixture.cutRepo }
          Fixture.repository =
        (Fixture.repository, some (.walkingLog 5 (bytes "b2") "object not found")) ∧
      indexLoop Fixture.cutRepo (newPullRequests [Fixture.listed 5 "b2" "cc"]) =
        ([].map (indexed Fixture.cutRepo) ++ Fixture.pullRequest 5 "b2" "cc" :: [],
          some (.walkingLog 5 (bytes "b2") "object not found")) :=
  indexPullRequests_merge_base_not_in_log
    { ListPullRequests := .ok [Fixture.listed 5 "b2" "cc"],
      PlainOpen := fun _ => .ok Fixture.cutRepo }
    Fixture.repository [Fixture.listed 5 "b2" "cc"] Fixture.cutRepo []
    (Fixture.pullRequest 5 "b2" "cc") [] Fixture.commitB2 Fixture.commitCC Fixture.commitAA
    { pending := [Fixture.commitB2, Fixture.commitB1], final := "object not found" }
    rfl rfl rfl (by intro q hq; cases hq) rfl rfl rfl rfl (by decide)

/-- C10, on the store of the example: for the pull request with head `aa`
and base `cc`, merge-base resolution yields exactly one commit, `aa`, which
is the head; the walk reaches it at once and ends well with no commit
collected; the turn of the pull request then panics on `commits[len(commits)-1]`
with index -1 out of range for length 0, and so does `indexPullRequests`. -/
theorem indexPullRequests_panics_when_head_is_merge_base :
    Fixture.gitRepo.CommitObject (Fixture.gitRepo.NewHash (bytes "aa")) = .ok Fixture.commitAA ∧
      Fixture.gitRepo.MergeBase Fixture.commitAA Fixture.commitCC = .ok [Fixture.commitAA] ∧
      Fixture.gitRepo.Log (Fixture.gitRepo.NewHash (bytes "aa")) =
        .ok { pending := [Fixture.commitAA], final := "EOF" } ∧
      walkLog Fixture.commitAA.Hash "EOF" [Fixture.commitAA] [] = .ok [] ∧
      prFiles Fixture.gitRepo (Fixture.pullRequest 7 "aa" "cc") =
        .error (.indexOutOfRange (-1) 0) ∧
      indexPullRequests (Fixture.services [Fixture.listed 7 "aa" "cc"]) Fixture.repository =
        (Fixture.repository, some (.indexOutOfRange (-1) 0)) :=
  ⟨rfl, rfl, rfl, rfl, rfl, rfl⟩


/-! ## The KEP store -/

theorem listStep_snd (p : Platform) (st : GoString × List KEP) (kep : KEP) :
    (listStep p st kep).2 = st.2 ++ [kep] := by
  unfold listStep
  simp only
  split_ifs <;> simp_all

theorem foldl_listStep_snd (p : Platform) (keps : List KEP) (st : GoString × List KEP) :
    (keps.foldl (listStep p) st).2 = st.2 ++ keps := by
  induction keps generalizing st with
  | nil => simp
  | cons k rest ih => rw [List.foldl_cons, ih, listStep_snd, List.append_assoc]; rfl

/-- Whatever the query, `ListKEPs` returns every KEP of the repository. -/
theorem ListKEPs_all (p : Platform) (r : Repository) (query : GoString) :
    ListKEPs p r query = .ok (r.keps.map Prod.snd) := by
  unfold ListKEPs
  rw [foldl_listStep_snd, List.nil_append]

/-- The walk function returns the parse error of a `kep.yaml` it could read. -/
theorem walkFn_parse_error (p : Platform) (r : Repository) (e : WalkEntry)
    (relativePath b : GoString) (err : ParseError)
    (he : e.err = none) (hd : e.isDir = false) (hn : p.Base e.path = bytes "kep.yaml")
    (hr : p.Rel r.basePath e.path = .ok relativePath) (hf : p.ReadFile e.path = .ok b)
    (hp : parseKEPFile p b = .error err) :
    walkFn p r e = (r, some (.parsingKEP e.path err)) := by
  unfold walkFn
  simp [he, hd, hn, hr, hf, hp]

/-- An error of the walk function is the result of `NewRepository`: the
repository built so far is dropped. -/
theorem walkEntries_error (p : Platform) (r r' : Repository) (e : WalkEntry)
    (rest : List WalkEntry) (err : LoadError) (h : walkFn p r e = (r', some err)) :
    walkEntries p r (e :: rest) = (r', some err) := by
  simp [walkEntries, h]

/-- C8, on a repository holding the KEPs "Beta" and "Gamma": the query
`beta` is not empty, "Gamma" contains it neither in its title nor in its
number nor in an author, and "Beta" contains it in its title, yet
`ListKEPs` returns both KEPs. -/
theorem ListKEPs_returns_kep_that_does_not_match :
    bytes "beta" ≠ [] ∧
      matchesQuery Fixture.soundTree (bytes "beta") Fixture.betaKEP = true ∧
      matchesQuery Fixture.soundTree (bytes "beta") Fixture.gammaKEP = false ∧
      ListKEPs Fixture.soundTree Fixture.twoKEPs (bytes "beta") =
        .ok [Fixture.betaKEP, Fixture.gammaKEP] :=
  ⟨by decide, by decide, by decide, rfl⟩

/-- C9, on a file tree with an unparseable `enhancements/a/kep.yaml` and a
well-formed `enhancements/b/kep.yaml`: the second file parses, and the tree
without the first file loads into a repository holding the KEP of the
second; with the first file present `NewRepository` returns the parse error
of that file and no repository. -/
theorem NewRepository_fails_on_unparseable_kep :
    parseKEPFile Fixture.brokenTree (bytes "title: [") = .error (.yaml "yaml: cannot unmarshal") ∧
      (∃ kep, parseKEPFile Fixture.brokenTree Fixture.betaYaml = .ok kep) ∧
      NewRepository Fixture.soundTree (bytes "enhancements") =
        .ok { basePath := bytes "enhancements", keps := [(bytes "b", Fixture.betaKEP)],
              pullRequests := [] } ∧
      NewRepository Fixture.brokenTree (bytes "enhancements") =
        .error (.parsingKEP (bytes "enhancements/a/kep.yaml")
          (.yaml "yaml: cannot unmarshal")) :=
  ⟨rfl, ⟨_, rfl⟩, rfl, rfl⟩

end Keptain
